import Mathlib

/-!
Verification of the PBR texture coverage matching engine of the
meteor-mo2-plugins repository (projects/pbr-coverage-checker), shallowly
embedded over character lists.  Paths are `List Char`; Python dicts become
association lists or finitely-updated functions; Python sets become `Finset`.
-/

namespace MeteorPBR

/-- Character strings, modelled as lists of characters. -/
abbrev PStr : Type := List Char

/-- Coerce a Lean string literal to the character-list representation. -/
def ps (s : String) : PStr := s.data

/-- ASCII lower-casing of one character: the effect of Python str.lower on ASCII text. -/
def lowerChar (c : Char) : Char :=
  if 65 ≤ c.toNat ∧ c.toNat ≤ 90 then Char.ofNat (c.toNat + 32) else c

/-- Python str.lower, restricted to its ASCII action. -/
def lowerStr (s : PStr) : PStr := s.map lowerChar

/-- One character of the replace of backslash by slash used throughout the source. -/
def bslashToSlash (c : Char) : Char := if c = '\\' then '/' else c

/-- Python s.encode('ascii') succeeds exactly when every character is below 128. -/
def isAsciiStr (s : PStr) : Bool := s.all (fun c => c.toNat < 128)

/-- Python s.endswith(t). -/
def endsWithStr (s t : PStr) : Bool := t.isSuffixOf s

/-- Python substring membership: pat in s. -/
def substrOf (pat s : PStr) : Bool := decide (pat <:+: s)

/-- Join path segments with forward slashes. -/
def joinSlash (parts : List PStr) : PStr := List.intercalate ['/'] parts

/-- TextureUtils.normalize_path: replace backslashes by slashes, split on slash,
drop empty parts, rejoin. -/
def normalize_path (path_str : PStr) : PStr :=
  if path_str = [] then []
  else joinSlash (((path_str.map bslashToSlash).splitOn '/').filter (fun part => part ≠ []))

/-- TextureUtils.pbr_suffixes, in source order (order matters: first match wins). -/
def pbr_suffixes : List PStr :=
  [ps "_envmask", ps "_rmaos", ps "_flow", ps "_cnr", ps "_msn", ps "_em",
   ps "_bl", ps "_sk", ps "_b", ps "_d", ps "_e", ps "_f", ps "_g", ps "_i",
   ps "_m", ps "_n", ps "_p", ps "_s", ps "mask",
   ps "_normalmap", ps "_envmap", ps "_spec", ps "_emit", ps "_nm"]

/-- Segments of a PurePosixPath: split on '/', dropping empty and single-dot parts. -/
def pathParts (s : PStr) : List PStr :=
  (s.splitOn '/').filter (fun seg => seg ≠ [] ∧ seg ≠ ps ".")

/-- PurePosixPath(s).name: the last segment, or empty. -/
def posixName (s : PStr) : PStr := (pathParts s).getLast?.getD []

/-- Python name.rfind('.'): index of the last dot, if any. -/
def rfindDot (n : PStr) : Option Nat :=
  (List.findIdx? (fun c => c = '.') n.reverse).map (fun j => n.length - 1 - j)

/-- PurePosixPath stem of a file name: drop the final extension when the last
dot is interior (Python pathlib PurePath.stem). -/
def stemOfName (n : PStr) : PStr :=
  match rfindDot n with
  | some i => if 0 < i ∧ i < n.length - 1 then n.take i else n
  | none => n

/-- Path(s).stem. -/
def posixStem (s : PStr) : PStr := stemOfName (posixName s)

/-- The PurePosixPath root of a string: leading slashes (two are special). -/
def posixRoot (s : PStr) : PStr :=
  let k := (s.takeWhile (fun c => c = '/')).length
  if k = 0 then [] else if k = 2 then ps "//" else ps "/"

/-- str(Path(s).parent). -/
def posixParentStr (s : PStr) : PStr :=
  let segs := (pathParts s).dropLast
  if posixRoot s = [] ∧ segs = [] then ps "." else posixRoot s ++ joinSlash segs

/-- The suffix-stripping for-else loop of TextureUtils.get_base_texture_name:
strip the first matching suffix of the table, in table order. -/
def stripStem (stem : PStr) : PStr :=
  match pbr_suffixes.find? (fun suf => endsWithStr stem suf) with
  | some suf => stem.take (stem.length - suf.length)
  | none => stem

/-- TextureUtils.get_base_texture_name. -/
def get_base_texture_name (texture_path : PStr) : PStr :=
  let normalized_path := normalize_path texture_path
  let stem := posixStem normalized_path
  let directory := (posixParentStr normalized_path).map bslashToSlash
  let base_stem := stripStem stem
  if directory = ps "." then base_stem ++ ps ".dds"
  else directory ++ ps "/" ++ base_stem ++ ps ".dds"

/-! ## CoverageAnalyzer (coverage_analyzer.py) -/

/-- pbr_covered_textures: a Python dict from base texture path to the set of
providing mods, modelled as an association list. -/
abbrev CovMap : Type := List (PStr × Finset PStr)

/-- Dict lookup (`key in d` and `d[key]` at once). -/
def lookupCov : CovMap → PStr → Option (Finset PStr)
  | [], _ => none
  | (k, v) :: rest, key => if key = k then some v else lookupCov rest key

/-- The numbered-variant suffixes tried by the fallback loop. -/
def variantSuffixes : List PStr := [ps "_01", ps "_02", ps "_03", ps "_04", ps "_05"]

/-- The numbered-variant fallback loop of find_coverage_analysis: for each
suffix the stem ends with, strip the last three characters, rebuild the path in
the same directory and retry the lookup; break on the first hit. -/
def fallbackLoop (cov : CovMap) (base_name texture_dir : PStr) : List PStr → Finset PStr
  | [] => ∅
  | suf :: rest =>
    if endsWithStr base_name suf then
      let fallback_base := base_name.take (base_name.length - 3)
      let fallback_path := if texture_dir = ps "." then fallback_base ++ ps ".dds"
        else texture_dir ++ ps "/" ++ fallback_base ++ ps ".dds"
      match lookupCov cov fallback_path with
      | some mods => mods
      | none => fallbackLoop cov base_name texture_dir rest
    else fallbackLoop cov base_name texture_dir rest

/-- The per-identity providing-set computation of find_coverage_analysis:
direct lookup first, then the numbered-variant fallback. -/
def providingMods (cov : CovMap) (base_texture_path : PStr) : Finset PStr :=
  match lookupCov cov base_texture_path with
  | some mods => mods
  | none =>
    fallbackLoop cov (posixStem base_texture_path)
      ((posixParentStr base_texture_path).map bslashToSlash) variantSuffixes

/-- The three defaultdict accumulators of find_coverage_analysis. -/
structure AnalysisState where
  covered : PStr → List PStr
  uncovered : PStr → List PStr
  providers : PStr → Finset PStr

/-- Point update of a defaultdict(list). -/
def updList (f : PStr → List PStr) (k : PStr) (v : List PStr) : PStr → List PStr :=
  fun x => if x = k then v else f x

/-- Point update of a defaultdict(set). -/
def updSet (f : PStr → Finset PStr) (k : PStr) (v : Finset PStr) : PStr → Finset PStr :=
  fun x => if x = k then v else f x

/-- The inner loop of find_coverage_analysis over the mod names owning one
identity: append to covered and union providers when the providing set is
non-empty, append to uncovered otherwise. -/
def stepMods (identity : PStr) (prov : Finset PStr) : AnalysisState → List PStr → AnalysisState
  | st, [] => st
  | st, mod_name :: rest =>
    stepMods identity prov
      (if prov ≠ ∅ then
        { st with
          covered := updList st.covered mod_name (st.covered mod_name ++ [identity]),
          providers := updSet st.providers mod_name (st.providers mod_name ∪ prov) }
       else
        { st with
          uncovered := updList st.uncovered mod_name (st.uncovered mod_name ++ [identity]) })
      rest

/-- One iteration of the outer loop of find_coverage_analysis. -/
def analyzeStep (cov : CovMap) (st : AnalysisState) (entry : PStr × List PStr) : AnalysisState :=
  stepMods entry.1 (providingMods cov entry.1) st entry.2

/-- The empty initial defaultdicts. -/
def initState : AnalysisState := ⟨fun _ => [], fun _ => [], fun _ => ∅⟩

/-- regular_textures: dict from base texture path to the set of owning mods,
given with an iteration order for the entries and for the mods of each entry. -/
abbrev RegList : Type := List (PStr × List PStr)

/-- CoverageAnalyzer.find_coverage_analysis. -/
def find_coverage_analysis (cov : CovMap) (reg : RegList) : AnalysisState :=
  reg.foldl (analyzeStep cov) initState

/-! ## PBRScanner (pbr_scanner.py) -/

/-- Parsed JSON values of a sidecar file. -/
inductive Json where
  | null : Json
  | bool (b : Bool) : Json
  | num (n : Int) : Json
  | str (s : PStr) : Json
  | arr (xs : List Json) : Json
  | obj (fields : List (PStr × Json)) : Json

/-- Python truthiness of a JSON value. -/
def jTruthy : Json → Bool
  | Json.null => false
  | Json.bool b => b
  | Json.num n => n != 0
  | Json.str s => !s.isEmpty
  | Json.arr xs => !xs.isEmpty
  | Json.obj fs => !fs.isEmpty

/-- Python dict insertion: overwrite keeps the original position, fresh keys
append at the end. -/
def dictInsert (fs : List (PStr × Json)) (k : PStr) (v : Json) : List (PStr × Json) :=
  if (fs.map Prod.fst).contains k then fs.map (fun kv => if kv.1 = k then (k, v) else kv)
  else fs ++ [(k, v)]

/-- Build a Python dict from a field list (json.load object semantics: last
value wins, first position kept). -/
def dictOfList (fields : List (PStr × Json)) : List (PStr × Json) :=
  fields.foldl (fun d kv => dictInsert d kv.1 kv.2) []

/-- Dict lookup on JSON object fields. -/
def dictGet : List (PStr × Json) → PStr → Option Json
  | [], _ => none
  | (k, v) :: rest, key => if key = k then some v else dictGet rest key

def isDigitChar (c : Char) : Bool := 48 ≤ c.toNat && c.toNat ≤ 57

/-- Keys of the form slot<digits> (Python: key.startswith('slot') and
key[4:].isdigit()). -/
def isSlotKey (k : PStr) : Bool :=
  (ps "slot").isPrefixOf k && !(k.drop 4).isEmpty && (k.drop 4).all isDigitChar

/-- The accumulating defaultdict(set) pbr_covered_textures. -/
abbrev CovAccum : Type := PStr → Finset PStr

/-- pbr_covered_textures[k].add(v). -/
def covAdd (m : CovAccum) (k v : PStr) : CovAccum :=
  fun x => if x = k then insert v (m x) else m x

/-- PBRScanner.excluded_patterns, in source order. -/
def excluded_patterns : List PStr :=
  [ps "cameras", ps "dyndolod", ps "lod", ps "markers",
   ps "facetint", ps "skintint", ps "landscape", ps "grass",
   ps "meta.ini", ps "cc", ps "_resourcepack"]

/-- The main texture-path construction of scan_pbr_coverage for one entry,
given the raw texture reference string: normalize, join with the file's
directory, the bare-filename branch with its textures/PBR search (pbrFiles
lists the mod's textures/PBR files relative to the textures folder, in
traversal order), and a final normalization. -/
def mainTexPath (texture_dir : PStr) (pbrFiles : List PStr) (raw : PStr) : PStr :=
  let texture_name := normalize_path raw
  let texture_path :=
    if texture_dir = ps "." then texture_name ++ ps ".dds"
    else texture_dir ++ ps "/" ++ texture_name ++ ps ".dds"
  let texture_path :=
    if !(texture_name.contains '/') && !(texture_name.contains '\\') then
      if texture_dir ≠ ps "." then texture_dir ++ ps "/" ++ texture_name ++ ps ".dds"
      else
        match pbrFiles.find? (fun f => posixName (f.map bslashToSlash) = texture_name ++ ps ".dds") with
        | some f => f.map bslashToSlash
        | none => texture_path
    else texture_path
  normalize_path texture_path

/-- The slot loop at the end of each entry of scan_pbr_coverage: keys
slot<digits> with truthy values contribute their (possibly prefix-stripped)
path, unless its base identity equals the one recorded by the main field.  The
Bool result records a Python exception escaping (a truthy non-string value),
which aborts the rest of the file but keeps the additions made so far. -/
def processSlots (mod_name : PStr) (base? : Option PStr) (m : CovAccum) :
    List (PStr × Json) → CovAccum × Bool
  | [] => (m, false)
  | (k, v) :: rest =>
    if isSlotKey k then
      if jTruthy v then
        match v with
        | Json.str s0 =>
          let s1 :=
            if (ps "textures/").isPrefixOf (lowerStr s0) then s0.drop 9
            else if (ps "textures\\").isPrefixOf (lowerStr s0) then s0.drop 9
            else s0
          let slot_texture_path := normalize_path s1
          let base_slot_path := lowerStr (get_base_texture_name slot_texture_path)
          let m' :=
            if base? = none ∨ some base_slot_path ≠ base? then covAdd m base_slot_path mod_name
            else m
          processSlots mod_name base? m' rest
        | _ => (m, true)
      else processSlots mod_name base? m rest
    else processSlots mod_name base? m rest

/-- Processing of one merged entry of scan_pbr_coverage: the
match_diffuse/texture branch (with non-ASCII continue and the exclusion check
guarding the addition), then the slot loop. -/
def processEntry (mod_name texture_dir : PStr) (is_excluded : Bool) (pbrFiles : List PStr)
    (m : CovAccum) (merged : List (PStr × Json)) : CovAccum × Bool :=
  let tn? : Option Json :=
    match dictGet merged (ps "match_diffuse") with
    | some v => some v
    | none => dictGet merged (ps "texture")
  match tn? with
  | some v =>
    if jTruthy v then
      match v with
      | Json.str s =>
        let texture_path := mainTexPath texture_dir pbrFiles s
        if !isAsciiStr texture_path then (m, false)
        else
          let base_texture_path := lowerStr (get_base_texture_name texture_path)
          let m' := if is_excluded then m else covAdd m base_texture_path mod_name
          processSlots mod_name (some base_texture_path) m' merged
      | _ => (m, true)
    else processSlots mod_name none m merged
  | none => processSlots mod_name none m merged

/-- The entry loop of scan_pbr_coverage, with Python dict-merge semantics for
defaults; a merge of a non-object (or a non-object defaults value) raises,
aborting the rest of the file while keeping earlier additions. -/
def processEntries (mod_name texture_dir : PStr) (is_excluded : Bool) (pbrFiles : List PStr)
    (defaults? : Option Json) (m : CovAccum) : List Json → CovAccum
  | [] => m
  | e :: rest =>
    match defaults?, e with
    | none, Json.obj efs =>
      let r := processEntry mod_name texture_dir is_excluded pbrFiles m (dictOfList efs)
      if r.2 then r.1
      else processEntries mod_name texture_dir is_excluded pbrFiles defaults? r.1 rest
    | some (Json.obj dfs), Json.obj efs =>
      let r := processEntry mod_name texture_dir is_excluded pbrFiles m (dictOfList (dfs ++ efs))
      if r.2 then r.1
      else processEntries mod_name texture_dir is_excluded pbrFiles defaults? r.1 rest
    | _, _ => m

/-- One sidecar JSON file: its directory relative to PBRNifPatcher (the
source's texture_dir, after the backslash replace) and its parse result
(none models a read or parse error). -/
structure JFile where
  texture_dir : PStr
  content : Option Json

/-- The JSON shape handling of scan_pbr_coverage: bare array; object with
optional default value and entries array; an object without entries is itself
the single entry; anything else yields no entries. -/
def shapeOf (data : Json) : Option Json × List Json :=
  match data with
  | Json.arr xs => (none, xs)
  | Json.obj fs =>
    let d := dictOfList fs
    match dictGet d (ps "entries") with
    | some (Json.arr xs) => (dictGet d (ps "default"), xs)
    | some _ => (dictGet d (ps "default"), [])
    | none => (dictGet d (ps "default"), [Json.obj fs])
  | _ => (none, [])

/-- Processing of one JSON file by scan_pbr_coverage: parse errors contribute
nothing; otherwise compute the exclusion flag from the directory and process
the entries. -/
def processFile (mod_name : PStr) (pbrFiles : List PStr) (m : CovAccum) (f : JFile) : CovAccum :=
  match f.content with
  | none => m
  | some data =>
    let is_excluded := excluded_patterns.any (fun pat => substrOf pat (lowerStr f.texture_dir))
    let sh := shapeOf data
    processEntries mod_name f.texture_dir is_excluded pbrFiles sh.1 m sh.2

/-- PBRScanner.scan_pbr_coverage over the listing of sidecar JSON files of one
mod's PBRNifPatcher folder. -/
def scan_pbr_coverage (mod_name : PStr) (pbrFiles : List PStr) (files : List JFile)
    (m : CovAccum) : CovAccum :=
  files.foldl (processFile mod_name pbrFiles) m

/-! ## TextureScanner (texture_scanner.py) -/

/-- The single-role variant-map suffixes skipped by the regular texture scan. -/
def variantMapSuffixes : List PStr := [ps "_n", ps "_m", ps "_s", ps "_g", ps "_p", ps "_e"]

/-- The accumulating defaultdict(set) regular_textures. -/
abbrev RegAccum : Type := PStr → Finset PStr

/-- regular_textures[k].add(v). -/
def regAdd (m : RegAccum) (k v : PStr) : RegAccum :=
  fun x => if x = k then insert v (m x) else m x

/-- Processing of one dds file by TextureScanner.scan_regular_textures; rel is
str(relative_path), the file's path relative to the textures folder. -/
def scanTexFile (mod_name : PStr) (m : RegAccum) (rel : PStr) : RegAccum :=
  let path0 := rel.map bslashToSlash
  let path_str := lowerStr (normalize_path path0)
  if !isAsciiStr path_str then m
  else if (ps "pbr/").isPrefixOf path_str ∨ (substrOf (ps "/pbr/") path_str : Bool) then m
  else if variantMapSuffixes.any (fun suf => endsWithStr (posixStem path0) suf) then m
  else if excluded_patterns.any (fun pat => substrOf pat path_str) then m
  else regAdd m (lowerStr (get_base_texture_name path_str)) mod_name

/-- TextureScanner.scan_regular_textures over the textures folder listing of
one mod. -/
def scan_regular_textures (mod_name : PStr) (files : List PStr) (m : RegAccum) : RegAccum :=
  files.foldl (scanTexFile mod_name) m

/-! ## Derived definitions used by the theorems -/

/-- The filtered segment list underlying normalize_path. -/
def normParts (s : PStr) : List PStr :=
  ((s.map bslashToSlash).splitOn '/').filter (fun part => part ≠ [])

/-- Per-entry contribution to covered[m]. -/
def coveredContrib (cov : CovMap) (m : PStr) (reg : RegList) : List PStr :=
  (reg.map (fun e =>
    if providingMods cov e.1 ≠ ∅ then List.replicate (e.2.count m) e.1 else [])).flatten

/-- Per-entry contribution to uncovered[m]. -/
def uncoveredContrib (cov : CovMap) (m : PStr) (reg : RegList) : List PStr :=
  (reg.map (fun e =>
    if providingMods cov e.1 = ∅ then List.replicate (e.2.count m) e.1 else [])).flatten

/-- Per-entry contribution to providers[m]. -/
def providersContrib (cov : CovMap) (m : PStr) (reg : RegList) : Finset PStr :=
  (reg.map (fun e =>
    if providingMods cov e.1 ≠ ∅ ∧ m ∈ e.2 then providingMods cov e.1 else ∅)).foldr (· ∪ ·) ∅

/-- The providing-set resolution exactly as the specification words it: direct
lookup of the identity; else, when the identity's stem ends with one of the
numbered-variant suffixes _01 .. _05, one retried lookup on the fallback
identity (last three characters of the stem stripped, same directory); else the
empty set. -/
def providingModsSpec (cov : CovMap) (identity : PStr) : Finset PStr :=
  match lookupCov cov identity with
  | some mods => mods
  | none =>
    let stem := posixStem identity
    let dir := (posixParentStr identity).map bslashToSlash
    if variantSuffixes.any (fun suf => endsWithStr stem suf) then
      let fallback_base := stem.take (stem.length - 3)
      let fallback_path := if dir = ps "." then fallback_base ++ ps ".dds"
        else dir ++ ps "/" ++ fallback_base ++ ps ".dds"
      match lookupCov cov fallback_path with
      | some mods => mods
      | none => ∅
    else ∅

/-- Entry equivalence for C5: same identity, owning mod list permuted. -/
def entryEquiv (e₁ e₂ : PStr × List PStr) : Prop := e₁.1 = e₂.1 ∧ e₁.2.Perm e₂.2

/-- The four skip conditions of scan_regular_textures, as the claim lists
them: a pbr/ segment, a single-role variant suffix on the file's stem, an
exclusion-pattern match, or non-ASCII characters. -/
def texSkip (rel : PStr) : Prop :=
  (ps "pbr/").isPrefixOf (lowerStr (normalize_path (rel.map bslashToSlash))) = true ∨
  substrOf (ps "/pbr/") (lowerStr (normalize_path (rel.map bslashToSlash))) = true ∨
  variantMapSuffixes.any (fun suf => endsWithStr (posixStem (rel.map bslashToSlash)) suf) = true ∨
  excluded_patterns.any (fun pat => substrOf pat (lowerStr (normalize_path (rel.map bslashToSlash)))) = true ∨
  isAsciiStr (lowerStr (normalize_path (rel.map bslashToSlash))) = false

instance (rel : PStr) : Decidable (texSkip rel) := by
  unfold texSkip
  infer_instance

/-- The lower-cased base texture identity a surviving file contributes. -/
def texBase (rel : PStr) : PStr :=
  lowerStr (get_base_texture_name (lowerStr (normalize_path (rel.map bslashToSlash))))

/-! ## Helper lemmas on splitting and joining -/

theorem mem_of_mem_splitOnP {α : Type} {p : α → Bool} :
    ∀ (s seg : List α), seg ∈ s.splitOnP p → ∀ x ∈ seg, x ∈ s ∧ p x = false := by
  intro s
  induction s with
  | nil =>
    intro seg hseg x hx
    rw [List.splitOnP_nil] at hseg
    rw [List.mem_singleton.mp hseg] at hx
    exact absurd hx (List.not_mem_nil x)
  | cons c s ih =>
    intro seg hseg x hx
    rw [List.splitOnP_cons] at hseg
    by_cases hc : p c
    · rw [if_pos hc] at hseg
      rcases List.mem_cons.mp hseg with h | h
      · rw [h] at hx; exact absurd hx (List.not_mem_nil x)
      · obtain ⟨hm, hp⟩ := ih seg h x hx
        exact ⟨List.mem_cons_of_mem _ hm, hp⟩
    · rw [if_neg hc] at hseg
      rcases hsp : s.splitOnP p with _ | ⟨hd, tl⟩
      · exact absurd hsp (List.splitOnP_ne_nil p s)
      · rw [hsp] at hseg
        simp only [List.modifyHead] at hseg
        rcases List.mem_cons.mp hseg with h | h
        · rw [h] at hx
          rcases List.mem_cons.mp hx with h1 | h1
          · subst h1; exact ⟨List.mem_cons_self _ _, by simpa using hc⟩
          · obtain ⟨hm, hp⟩ := ih hd (by rw [hsp]; exact List.mem_cons_self _ _) x h1
            exact ⟨List.mem_cons_of_mem _ hm, hp⟩
        · obtain ⟨hm, hp⟩ := ih seg (by rw [hsp]; exact List.mem_cons_of_mem _ h) x hx
          exact ⟨List.mem_cons_of_mem _ hm, hp⟩

theorem not_slash_mem_of_mem_splitOn {s seg : PStr} (h : seg ∈ s.splitOn '/') : '/' ∉ seg := by
  intro hmem
  have := (mem_of_mem_splitOnP s seg (by simpa [List.splitOn] using h) '/' hmem).2
  simp at this

theorem subset_of_mem_splitOn {s seg : PStr} (h : seg ∈ s.splitOn '/') : ∀ x ∈ seg, x ∈ s :=
  fun x hx => (mem_of_mem_splitOnP s seg (by simpa [List.splitOn] using h) x hx).1

theorem joinSlash_nil : joinSlash [] = [] := rfl

theorem joinSlash_single (a : PStr) : joinSlash [a] = a := by
  simp [joinSlash, List.intercalate]

theorem joinSlash_cons_cons (a b : PStr) (t : List PStr) :
    joinSlash (a :: b :: t) = a ++ '/' :: joinSlash (b :: t) := by
  simp [joinSlash, List.intercalate]

theorem joinSlash_ne_nil {a : PStr} (t : List PStr) (ha : a ≠ []) : joinSlash (a :: t) ≠ [] := by
  cases t with
  | nil => simpa [joinSlash_single] using ha
  | cons b t => rw [joinSlash_cons_cons]; simp [ha]

theorem mem_joinSlash {c : Char} :
    ∀ (parts : List PStr), c ∈ joinSlash parts → c = '/' ∨ ∃ a ∈ parts, c ∈ a := by
  intro parts
  induction parts with
  | nil => intro h; exact absurd h (by simp [joinSlash_nil])
  | cons a t ih =>
    intro h
    cases t with
    | nil =>
      rw [joinSlash_single] at h
      exact Or.inr ⟨a, List.mem_cons_self _ _, h⟩
    | cons b t' =>
      rw [joinSlash_cons_cons] at h
      rcases List.mem_append.mp h with h | h
      · exact Or.inr ⟨a, List.mem_cons_self _ _, h⟩
      · rcases List.mem_cons.mp h with h | h
        · exact Or.inl h
        · rcases ih h with h | ⟨x, hx, hc⟩
          · exact Or.inl h
          · exact Or.inr ⟨x, List.mem_cons_of_mem _ hx, hc⟩

theorem head?_ne_slash {a : PStr} (ha : a ≠ []) (hs : '/' ∉ a) : a.head? ≠ some '/' := by
  cases a with
  | nil => simp at ha
  | cons x t =>
    intro h
    simp only [List.head?, Option.some_inj] at h
    exact hs (h ▸ List.mem_cons_self _ _)

theorem joinSlash_head_ne_slash (parts : List PStr)
    (hne : ∀ a ∈ parts, a ≠ []) (hsl : ∀ a ∈ parts, '/' ∉ a) :
    (joinSlash parts).head? ≠ some '/' := by
  cases parts with
  | nil => simp [joinSlash_nil]
  | cons a t =>
    have ha := hne a (List.mem_cons_self a t)
    have hs := hsl a (List.mem_cons_self a t)
    cases t with
    | nil => rw [joinSlash_single]; exact head?_ne_slash ha hs
    | cons b t' =>
      rw [joinSlash_cons_cons, List.head?_append_of_ne_nil a ha]
      exact head?_ne_slash ha hs

theorem getLast?_ne_slash {a : PStr} (_ha : a ≠ []) (hs : '/' ∉ a) : a.getLast? ≠ some '/' := by
  intro h
  have := List.mem_getLast?_eq_getLast (Option.mem_def.mpr h)
  obtain ⟨hh, heq⟩ := this
  exact hs (heq ▸ List.getLast_mem hh)

theorem joinSlash_getLast_ne_slash :
    ∀ (parts : List PStr), (∀ a ∈ parts, a ≠ []) → (∀ a ∈ parts, '/' ∉ a) →
      (joinSlash parts).getLast? ≠ some '/' := by
  intro parts
  induction parts with
  | nil => intro _ _; simp [joinSlash_nil]
  | cons a t ih =>
    intro hne hsl
    have ha := hne a (List.mem_cons_self a t)
    have hs := hsl a (List.mem_cons_self a t)
    cases t with
    | nil => rw [joinSlash_single]; exact getLast?_ne_slash ha hs
    | cons b t' =>
      rw [joinSlash_cons_cons, List.getLast?_append_cons]
      have hb := hne b (List.mem_cons_of_mem _ (List.mem_cons_self b t'))
      rcases hr : joinSlash (b :: t') with _ | ⟨r, R⟩
      · exact absurd hr (joinSlash_ne_nil t' hb)
      · rw [List.getLast?_cons_cons]
        rw [← hr]
        exact ih (fun x hx => hne x (List.mem_cons_of_mem _ hx))
          (fun x hx => hsl x (List.mem_cons_of_mem _ hx))

theorem normalize_path_eq_joinSlash (s : PStr) : normalize_path s = joinSlash (normParts s) := by
  unfold normalize_path normParts
  by_cases h : s = []
  · subst h; rfl
  · rw [if_neg h]

theorem normParts_mem_ne_nil (s : PStr) : ∀ a ∈ normParts s, a ≠ [] := by
  intro a ha
  simpa using (List.mem_filter.mp ha).2

theorem normParts_no_slash (s : PStr) : ∀ a ∈ normParts s, '/' ∉ a := by
  intro a ha
  exact not_slash_mem_of_mem_splitOn (List.mem_filter.mp ha).1

theorem bslashToSlash_ne_bslash (c : Char) : bslashToSlash c ≠ '\\' := by
  unfold bslashToSlash
  by_cases h : c = '\\' <;> simp [h]

theorem normParts_no_bslash (s : PStr) : ∀ a ∈ normParts s, '\\' ∉ a := by
  intro a ha hmem
  have hsub := subset_of_mem_splitOn (List.mem_filter.mp ha).1 '\\' hmem
  rcases List.mem_map.mp hsub with ⟨c, _, hc⟩
  exact bslashToSlash_ne_bslash c hc

/-- C7: normalize_path never fails: the empty input returns the empty string,
and for every input the output contains no backslash, no leading or trailing
forward slash, and, when non-empty, splitting it on '/' yields no empty
segment. -/
theorem C7_normalize_path_wellformed :
    normalize_path [] = [] ∧
    ∀ s : PStr,
      '\\' ∉ normalize_path s ∧
      (normalize_path s).head? ≠ some '/' ∧
      (normalize_path s).getLast? ≠ some '/' ∧
      (normalize_path s = [] ∨ ∀ seg ∈ (normalize_path s).splitOn '/', seg ≠ []) := by
  refine ⟨rfl, fun s => ?_⟩
  rw [normalize_path_eq_joinSlash]
  refine ⟨?_, joinSlash_head_ne_slash _ (normParts_mem_ne_nil s) (normParts_no_slash s),
    joinSlash_getLast_ne_slash _ (normParts_mem_ne_nil s) (normParts_no_slash s), ?_⟩
  · intro hmem
    rcases mem_joinSlash _ hmem with h | ⟨a, ha, hc⟩
    · exact absurd h (by decide)
    · exact normParts_no_bslash s a ha hc
  · by_cases hp : normParts s = []
    · exact Or.inl (by rw [hp, joinSlash_nil])
    · refine Or.inr ?_
      have hsplit : (joinSlash (normParts s)).splitOn '/' = normParts s := by
        unfold joinSlash
        exact List.splitOn_intercalate (normParts s) '/' (normParts_no_slash s) hp
      rw [hsplit]
      exact normParts_mem_ne_nil s

/-- Witness for C7 at a concrete input with backslashes and doubled slashes. -/
theorem C7_witness :
    '\\' ∉ normalize_path (ps "\\armor//steel\\") ∧
      (normalize_path (ps "\\armor//steel\\")).head? ≠ some '/' := by
  have h := C7_normalize_path_wellformed.2 (ps "\\armor//steel\\")
  exact ⟨h.1, h.2.1⟩

/-- C8: suffix stripping respects table order: any stem ending in _rmaos has
exactly _rmaos stripped (never the shorter _s that the stem also ends with);
in particular armor/steel/cuirass_rmaos.dds reduces to armor/steel/cuirass.dds
and not to the _s-truncated armor/steel/cuirass_rmao.dds. -/
theorem C8_suffix_table_order :
    (∀ stem : PStr, endsWithStr stem (ps "_rmaos") = true →
        stripStem stem = stem.take (stem.length - 6)) ∧
    get_base_texture_name (ps "armor/steel/cuirass_rmaos.dds") = ps "armor/steel/cuirass.dds" ∧
    get_base_texture_name (ps "armor/steel/cuirass_rmaos.dds") ≠ ps "armor/steel/cuirass_rmao.dds" := by
  refine ⟨?_, by decide, by decide⟩
  intro stem h
  have hsuf : ps "_rmaos" <:+ stem := by
    rw [← List.isSuffixOf_iff_suffix]
    exact h
  have henv : endsWithStr stem (ps "_envmask") = false := by
    rw [Bool.eq_false_iff]
    intro hx
    have h2 : ps "_envmask" <:+ stem := by
      rw [← List.isSuffixOf_iff_suffix]; exact hx
    have h3 : ps "_rmaos" <:+ ps "_envmask" :=
      List.suffix_of_suffix_length_le hsuf h2 (by decide)
    exact absurd h3 (by decide)
  have hfind : pbr_suffixes.find? (fun suf => endsWithStr stem suf) = some (ps "_rmaos") := by
    unfold pbr_suffixes
    rw [List.find?_cons_of_neg _ (by simp [henv]), List.find?_cons_of_pos _ (by simp [h])]
  unfold stripStem
  rw [hfind]
  rfl

/-- Witness for C8 at the concrete stem of the claim. -/
theorem C8_witness :
    stripStem (ps "cuirass_rmaos") = (ps "cuirass_rmaos").take ((ps "cuirass_rmaos").length - 6) :=
  C8_suffix_table_order.1 (ps "cuirass_rmaos") (by decide)

/-- C9: a read or parse error in one sidecar JSON file is contained to that
file: it contributes nothing to coverage, the scan of all other files proceeds
unchanged, and the accumulation from files before it is unaffected. -/
theorem C9_parse_error_contained (mod_name : PStr) (pbrFiles : List PStr)
    (files₁ files₂ : List JFile) (f : JFile) (m : CovAccum) (h : f.content = none) :
    scan_pbr_coverage mod_name pbrFiles (files₁ ++ f :: files₂) m =
      scan_pbr_coverage mod_name pbrFiles (files₁ ++ files₂) m ∧
    processFile mod_name pbrFiles (scan_pbr_coverage mod_name pbrFiles files₁ m) f =
      scan_pbr_coverage mod_name pbrFiles files₁ m := by
  have hid : ∀ mm : CovAccum, processFile mod_name pbrFiles mm f = mm := by
    intro mm; unfold processFile; rw [h]
  constructor
  · unfold scan_pbr_coverage
    rw [List.foldl_append, List.foldl_append, List.foldl_cons, hid]
  · exact hid _

/-- Witness for C9: a concrete scan with an unparseable file in the middle. -/
theorem C9_witness :
    scan_pbr_coverage (ps "M") []
        ([⟨ps "armor", some (Json.arr [Json.obj [(ps "texture", Json.str (ps "x"))]])⟩] ++
          (⟨ps "bad", none⟩ : JFile) :: [⟨ps "weapons", some (Json.arr [])⟩]) (fun _ => ∅) =
      scan_pbr_coverage (ps "M") []
        ([⟨ps "armor", some (Json.arr [Json.obj [(ps "texture", Json.str (ps "x"))]])⟩] ++
          [⟨ps "weapons", some (Json.arr [])⟩]) (fun _ => ∅) :=
  (C9_parse_error_contained (ps "M") [] _ _ ⟨ps "bad", none⟩ _ rfl).1

/-! ## Closed forms for find_coverage_analysis -/

theorem cons_replicate_append (a : Char) (n : Nat) :
    a :: List.replicate n a = List.replicate n a ++ [a] := by
  rw [← List.replicate_succ, List.replicate_succ']

theorem stepMods_covered (identity : PStr) (prov : Finset PStr) :
    ∀ (ms : List PStr) (st : AnalysisState) (m : PStr),
      (stepMods identity prov st ms).covered m =
        st.covered m ++ (if prov ≠ ∅ then List.replicate (ms.count m) identity else []) := by
  intro ms
  induction ms with
  | nil => intro st m; simp [stepMods]
  | cons x rest ih =>
    intro st m
    show (stepMods identity prov _ rest).covered m = _
    rw [ih]
    by_cases hp : prov ≠ ∅
    · rw [if_pos hp, if_pos hp, if_pos hp]
      dsimp only [updList]
      by_cases hmx : m = x
      · subst hmx
        simp [List.count_cons, List.append_assoc, cons_replicate_append, List.replicate_succ]
      · have hbeq : (x == m) = false := by simpa using fun h => hmx h.symm
        simp [List.count_cons, hbeq, hmx]
    · rw [if_neg hp, if_neg hp, if_neg hp]

theorem stepMods_uncovered (identity : PStr) (prov : Finset PStr) :
    ∀ (ms : List PStr) (st : AnalysisState) (m : PStr),
      (stepMods identity prov st ms).uncovered m =
        st.uncovered m ++ (if prov = ∅ then List.replicate (ms.count m) identity else []) := by
  intro ms
  induction ms with
  | nil => intro st m; simp [stepMods]
  | cons x rest ih =>
    intro st m
    show (stepMods identity prov _ rest).uncovered m = _
    rw [ih]
    by_cases hp : prov = ∅
    · rw [if_pos hp, if_pos hp]
      have hp' : ¬ prov ≠ ∅ := by simpa using hp
      rw [if_neg hp']
      dsimp only [updList]
      by_cases hmx : m = x
      · subst hmx
        simp [List.count_cons, List.append_assoc, cons_replicate_append, List.replicate_succ]
      · have hbeq : (x == m) = false := by simpa using fun h => hmx h.symm
        simp [List.count_cons, hbeq, hmx]
    · rw [if_neg hp, if_neg hp]
      have hp' : prov ≠ ∅ := hp
      rw [if_pos hp']

theorem stepMods_providers (identity : PStr) (prov : Finset PStr) :
    ∀ (ms : List PStr) (st : AnalysisState) (m : PStr),
      (stepMods identity prov st ms).providers m =
        st.providers m ∪ (if prov ≠ ∅ ∧ m ∈ ms then prov else ∅) := by
  intro ms
  induction ms with
  | nil => intro st m; simp [stepMods]
  | cons x rest ih =>
    intro st m
    show (stepMods identity prov _ rest).providers m = _
    rw [ih]
    by_cases hp : prov ≠ ∅
    · rw [if_pos hp]
      dsimp only [updSet]
      by_cases hmx : m = x
      · subst hmx
        rw [if_pos rfl]
        by_cases hr : m ∈ rest
        · rw [if_pos ⟨hp, hr⟩, if_pos ⟨hp, List.mem_cons_self m rest⟩,
            Finset.union_assoc, Finset.union_self]
        · rw [if_neg (fun h => hr h.2), if_pos ⟨hp, List.mem_cons_self m rest⟩,
            Finset.union_empty]
      · rw [if_neg hmx]
        have hcons : (prov ≠ ∅ ∧ m ∈ x :: rest) ↔ (prov ≠ ∅ ∧ m ∈ rest) := by
          constructor
          · rintro ⟨h1, h2⟩
            rcases List.mem_cons.mp h2 with h | h
            · exact absurd h hmx
            · exact ⟨h1, h⟩
          · rintro ⟨h1, h2⟩
            exact ⟨h1, List.mem_cons_of_mem _ h2⟩
        rw [if_congr hcons rfl rfl]
    · rw [if_neg hp]
      rw [if_neg (by simp [hp] : ¬ (prov ≠ ∅ ∧ m ∈ rest)),
        if_neg (by simp [hp] : ¬ (prov ≠ ∅ ∧ m ∈ x :: rest))]

theorem analyzeFrom_covered (cov : CovMap) :
    ∀ (reg : RegList) (st : AnalysisState) (m : PStr),
      (reg.foldl (analyzeStep cov) st).covered m = st.covered m ++ coveredContrib cov m reg := by
  intro reg
  induction reg with
  | nil => intro st m; simp [coveredContrib]
  | cons e rest ih =>
    intro st m
    rw [List.foldl_cons, ih]
    unfold analyzeStep
    rw [stepMods_covered]
    simp [coveredContrib, List.append_assoc]

theorem analyzeFrom_uncovered (cov : CovMap) :
    ∀ (reg : RegList) (st : AnalysisState) (m : PStr),
      (reg.foldl (analyzeStep cov) st).uncovered m = st.uncovered m ++ uncoveredContrib cov m reg := by
  intro reg
  induction reg with
  | nil => intro st m; simp [uncoveredContrib]
  | cons e rest ih =>
    intro st m
    rw [List.foldl_cons, ih]
    unfold analyzeStep
    rw [stepMods_uncovered]
    simp [uncoveredContrib, List.append_assoc]

theorem analyzeFrom_providers (cov : CovMap) :
    ∀ (reg : RegList) (st : AnalysisState) (m : PStr),
      (reg.foldl (analyzeStep cov) st).providers m = st.providers m ∪ providersContrib cov m reg := by
  intro reg
  induction reg with
  | nil => intro st m; simp [providersContrib]
  | cons e rest ih =>
    intro st m
    rw [List.foldl_cons, ih]
    unfold analyzeStep
    rw [stepMods_providers]
    simp [providersContrib, Finset.union_assoc]

theorem mem_coveredContrib {cov : CovMap} {m i : PStr} (reg : RegList) :
    i ∈ coveredContrib cov m reg ↔
      ∃ e ∈ reg, e.1 = i ∧ m ∈ e.2 ∧ providingMods cov e.1 ≠ ∅ := by
  unfold coveredContrib
  rw [List.mem_flatten]
  constructor
  · rintro ⟨l, hl, hil⟩
    rcases List.mem_map.mp hl with ⟨e, he, rfl⟩
    by_cases hp : providingMods cov e.1 ≠ ∅
    · rw [if_pos hp] at hil
      obtain ⟨hn, rfl⟩ := List.mem_replicate.mp hil
      refine ⟨e, he, rfl, ?_, hp⟩
      by_contra hmem
      exact hn (List.count_eq_zero.mpr hmem)
    · rw [if_neg hp] at hil
      exact absurd hil (List.not_mem_nil i)
  · rintro ⟨e, he, rfl, hmem, hp⟩
    refine ⟨List.replicate (e.2.count m) e.1, ?_, ?_⟩
    · refine List.mem_map.mpr ⟨e, he, ?_⟩
      dsimp only
      rw [if_pos hp]
    · exact List.mem_replicate.mpr ⟨fun h => (List.count_eq_zero.mp h) hmem, rfl⟩

theorem mem_uncoveredContrib {cov : CovMap} {m i : PStr} (reg : RegList) :
    i ∈ uncoveredContrib cov m reg ↔
      ∃ e ∈ reg, e.1 = i ∧ m ∈ e.2 ∧ providingMods cov e.1 = ∅ := by
  unfold uncoveredContrib
  rw [List.mem_flatten]
  constructor
  · rintro ⟨l, hl, hil⟩
    rcases List.mem_map.mp hl with ⟨e, he, rfl⟩
    by_cases hp : providingMods cov e.1 = ∅
    · rw [if_pos hp] at hil
      obtain ⟨hn, rfl⟩ := List.mem_replicate.mp hil
      refine ⟨e, he, rfl, ?_, hp⟩
      by_contra hmem
      exact hn (List.count_eq_zero.mpr hmem)
    · rw [if_neg hp] at hil
      exact absurd hil (List.not_mem_nil i)
  · rintro ⟨e, he, rfl, hmem, hp⟩
    refine ⟨List.replicate (e.2.count m) e.1, ?_, ?_⟩
    · refine List.mem_map.mpr ⟨e, he, ?_⟩
      dsimp only
      rw [if_pos hp]
    · exact List.mem_replicate.mpr ⟨fun h => (List.count_eq_zero.mp h) hmem, rfl⟩

theorem mem_foldr_union {β : Type} [DecidableEq β] (x : β) :
    ∀ (l : List (Finset β)), x ∈ l.foldr (· ∪ ·) ∅ ↔ ∃ t ∈ l, x ∈ t := by
  intro l
  induction l with
  | nil => simp
  | cons a t ih => simp [ih]

theorem mem_providersContrib {cov : CovMap} {m x : PStr} (reg : RegList) :
    x ∈ providersContrib cov m reg ↔
      ∃ e ∈ reg, providingMods cov e.1 ≠ ∅ ∧ m ∈ e.2 ∧ x ∈ providingMods cov e.1 := by
  unfold providersContrib
  rw [mem_foldr_union]
  constructor
  · rintro ⟨t, ht, hxt⟩
    rcases List.mem_map.mp ht with ⟨e, he, rfl⟩
    by_cases hc : providingMods cov e.1 ≠ ∅ ∧ m ∈ e.2
    · rw [if_pos hc] at hxt
      exact ⟨e, he, hc.1, hc.2, hxt⟩
    · rw [if_neg hc] at hxt
      exact absurd hxt (Finset.not_mem_empty x)
  · rintro ⟨e, he, h1, h2, h3⟩
    refine ⟨_, List.mem_map_of_mem _ he, ?_⟩
    rw [if_pos ⟨h1, h2⟩]
    exact h3

theorem covered_mem_iff (cov : CovMap) (reg : RegList) (m i : PStr) :
    i ∈ (find_coverage_analysis cov reg).covered m ↔
      ∃ e ∈ reg, e.1 = i ∧ m ∈ e.2 ∧ providingMods cov e.1 ≠ ∅ := by
  unfold find_coverage_analysis
  rw [analyzeFrom_covered]
  simp only [initState, List.nil_append]
  exact mem_coveredContrib reg

theorem uncovered_mem_iff (cov : CovMap) (reg : RegList) (m i : PStr) :
    i ∈ (find_coverage_analysis cov reg).uncovered m ↔
      ∃ e ∈ reg, e.1 = i ∧ m ∈ e.2 ∧ providingMods cov e.1 = ∅ := by
  unfold find_coverage_analysis
  rw [analyzeFrom_uncovered]
  simp only [initState, List.nil_append]
  exact mem_uncoveredContrib reg

theorem providers_mem_iff (cov : CovMap) (reg : RegList) (m x : PStr) :
    x ∈ (find_coverage_analysis cov reg).providers m ↔
      ∃ e ∈ reg, providingMods cov e.1 ≠ ∅ ∧ m ∈ e.2 ∧ x ∈ providingMods cov e.1 := by
  unfold find_coverage_analysis
  rw [analyzeFrom_providers]
  simp only [initState, Finset.empty_union]
  exact mem_providersContrib reg

theorem fallbackLoop_eq (cov : CovMap) (base_name texture_dir : PStr) :
    ∀ L : List PStr, fallbackLoop cov base_name texture_dir L =
      if L.any (fun suf => endsWithStr base_name suf) then
        (match lookupCov cov
            (if texture_dir = ps "."
              then base_name.take (base_name.length - 3) ++ ps ".dds"
              else texture_dir ++ ps "/" ++ base_name.take (base_name.length - 3) ++ ps ".dds") with
          | some mods => mods
          | none => ∅)
      else ∅ := by
  intro L
  induction L with
  | nil => simp [fallbackLoop]
  | cons suf rest ih =>
    rw [fallbackLoop]
    dsimp only
    by_cases hs : endsWithStr base_name suf = true
    · rw [if_pos hs]
      have hany : (suf :: rest).any (fun s => endsWithStr base_name s) = true := by
        simp [hs]
      rw [if_pos hany]
      cases hl : lookupCov cov
          (if texture_dir = ps "."
            then base_name.take (base_name.length - 3) ++ ps ".dds"
            else texture_dir ++ ps "/" ++ base_name.take (base_name.length - 3) ++ ps ".dds") with
      | some mods => rfl
      | none =>
        rw [ih, hl]
        by_cases hr : rest.any (fun s => endsWithStr base_name s) = true
        · rw [if_pos hr]
        · rw [if_neg hr]
    · rw [if_neg hs, ih]
      have hany : (suf :: rest).any (fun s => endsWithStr base_name s) =
          rest.any (fun s => endsWithStr base_name s) := by
        simp [List.any_cons, Bool.eq_false_iff.mpr hs]
      rw [hany]

theorem providingMods_eq_spec (cov : CovMap) (i : PStr) :
    providingMods cov i = providingModsSpec cov i := by
  unfold providingMods providingModsSpec
  cases lookupCov cov i with
  | some mods => rfl
  | none =>
    rw [fallbackLoop_eq]

/-- C1: find_coverage_analysis resolves each identity of regular_map by direct
lookup in coverage_map, else by the numbered-variant fallback (_01 .. _05,
last three stem characters stripped, same directory), else the empty providing
set; every owning mod has the identity appended to covered with the providers
unioned when the providing set is non-empty, and to uncovered otherwise.  The
two concrete scenarios of the claim evaluate as stated. -/
theorem C1_analyze_resolution :
    (∀ (cov : CovMap) (i : PStr), providingMods cov i = providingModsSpec cov i) ∧
    (∀ (cov : CovMap) (reg : RegList) (m i : PStr),
      (i ∈ (find_coverage_analysis cov reg).covered m ↔
        ∃ e ∈ reg, e.1 = i ∧ m ∈ e.2 ∧ providingModsSpec cov e.1 ≠ ∅) ∧
      (i ∈ (find_coverage_analysis cov reg).uncovered m ↔
        ∃ e ∈ reg, e.1 = i ∧ m ∈ e.2 ∧ providingModsSpec cov e.1 = ∅)) ∧
    ((find_coverage_analysis [(ps "armor/x.dds", {ps "PBRModA"})]
        [(ps "armor/x.dds", [ps "RegModB"])]).covered =
      fun m => if m = ps "RegModB" then [ps "armor/x.dds"] else []) ∧
    ((find_coverage_analysis [(ps "armor/x.dds", {ps "PBRModA"})]
        [(ps "armor/x.dds", [ps "RegModB"])]).providers =
      fun m => if m = ps "RegModB" then {ps "PBRModA"} else ∅) ∧
    ((find_coverage_analysis [(ps "armor/x.dds", {ps "PBRModA"})]
        [(ps "armor/x.dds", [ps "RegModB"])]).uncovered = fun _ => []) ∧
    ((find_coverage_analysis [(ps "armor/x.dds", {ps "PBRModA"})]
        [(ps "armor/x_02.dds", [ps "RegModB"])]).covered =
      fun m => if m = ps "RegModB" then [ps "armor/x_02.dds"] else []) := by
  refine ⟨providingMods_eq_spec, ?_, ?_, ?_, ?_, ?_⟩
  · intro cov reg m i
    constructor
    · rw [covered_mem_iff]
      simp only [providingMods_eq_spec]
    · rw [uncovered_mem_iff]
      simp only [providingMods_eq_spec]
  · funext m
    unfold find_coverage_analysis
    rw [analyzeFrom_covered]
    simp only [initState, List.nil_append, coveredContrib, List.map_cons, List.map_nil,
      List.flatten_cons, List.flatten_nil, List.append_nil]
    rw [if_pos (by decide :
      providingMods [(ps "armor/x.dds", ({ps "PBRModA"} : Finset PStr))] (ps "armor/x.dds") ≠ ∅)]
    by_cases hm : m = ps "RegModB"
    · subst hm; decide
    · rw [if_neg hm, List.count_eq_zero.mpr (by simp [hm]), List.replicate_zero]
  · funext m
    unfold find_coverage_analysis
    rw [analyzeFrom_providers]
    simp only [initState, Finset.empty_union, providersContrib, List.map_cons, List.map_nil,
      List.foldr_cons, List.foldr_nil, Finset.union_empty]
    by_cases hm : m = ps "RegModB"
    · subst hm; decide
    · rw [if_neg (fun h => hm (List.mem_singleton.mp h.2)), if_neg hm]
  · funext m
    unfold find_coverage_analysis
    rw [analyzeFrom_uncovered]
    simp only [initState, List.nil_append, uncoveredContrib, List.map_cons, List.map_nil,
      List.flatten_cons, List.flatten_nil, List.append_nil]
    rw [if_neg (by decide : ¬ providingMods
      [(ps "armor/x.dds", ({ps "PBRModA"} : Finset PStr))] (ps "armor/x.dds") = ∅)]
  · funext m
    unfold find_coverage_analysis
    rw [analyzeFrom_covered]
    simp only [initState, List.nil_append, coveredContrib, List.map_cons, List.map_nil,
      List.flatten_cons, List.flatten_nil, List.append_nil]
    rw [if_pos (by decide :
      providingMods [(ps "armor/x.dds", ({ps "PBRModA"} : Finset PStr))] (ps "armor/x_02.dds") ≠ ∅)]
    by_cases hm : m = ps "RegModB"
    · subst hm; decide
    · rw [if_neg hm, List.count_eq_zero.mpr (by simp [hm]), List.replicate_zero]

theorem exists_mem_iff_forall₂ {l₁ l₂ : RegList} (h : List.Forall₂ entryEquiv l₁ l₂)
    {R : PStr × List PStr → Prop} (hR : ∀ e₁ e₂, entryEquiv e₁ e₂ → (R e₁ ↔ R e₂)) :
    (∃ e ∈ l₁, R e) ↔ ∃ e ∈ l₂, R e := by
  induction h with
  | nil => simp
  | cons hab ht ih =>
    simp only [List.mem_cons]
    constructor
    · rintro ⟨e, he | he, hRe⟩
      · exact ⟨_, Or.inl rfl, (hR _ _ hab).mp (he ▸ hRe)⟩
      · obtain ⟨e', he', hRe'⟩ := ih.mp ⟨e, he, hRe⟩
        exact ⟨e', Or.inr he', hRe'⟩
    · rintro ⟨e, he | he, hRe⟩
      · exact ⟨_, Or.inl rfl, (hR _ _ hab).mpr (he ▸ hRe)⟩
      · obtain ⟨e', he', hRe'⟩ := ih.mpr ⟨e, he, hRe⟩
        exact ⟨e', Or.inr he', hRe'⟩

/-- C5: find_coverage_analysis is order-independent: permuting the iteration
order of regular_map's entries (and of the mod names inside each entry) leaves
the per-mod covered and uncovered collections equal as sets of identities and
the per-mod provider sets equal. -/
theorem C5_order_independence (cov : CovMap) (reg₁ mid reg₂ : RegList) (m : PStr)
    (h₁ : List.Forall₂ entryEquiv reg₁ mid) (h₂ : mid.Perm reg₂) :
    (∀ i, i ∈ (find_coverage_analysis cov reg₁).covered m ↔
          i ∈ (find_coverage_analysis cov reg₂).covered m) ∧
    (∀ i, i ∈ (find_coverage_analysis cov reg₁).uncovered m ↔
          i ∈ (find_coverage_analysis cov reg₂).uncovered m) ∧
    (find_coverage_analysis cov reg₁).providers m =
      (find_coverage_analysis cov reg₂).providers m := by
  have key : ∀ (R : PStr × List PStr → Prop), (∀ e₁ e₂, entryEquiv e₁ e₂ → (R e₁ ↔ R e₂)) →
      ((∃ e ∈ reg₁, R e) ↔ ∃ e ∈ reg₂, R e) := by
    intro R hR
    rw [exists_mem_iff_forall₂ h₁ hR]
    constructor
    · rintro ⟨e, he, hRe⟩
      exact ⟨e, h₂.mem_iff.mp he, hRe⟩
    · rintro ⟨e, he, hRe⟩
      exact ⟨e, h₂.mem_iff.mpr he, hRe⟩
  refine ⟨?_, ?_, ?_⟩
  · intro i
    rw [covered_mem_iff, covered_mem_iff]
    exact key (fun e => e.1 = i ∧ m ∈ e.2 ∧ providingMods cov e.1 ≠ ∅)
      (by rintro e₁ e₂ ⟨hid, hperm⟩; dsimp only; rw [hid, hperm.mem_iff])
  · intro i
    rw [uncovered_mem_iff, uncovered_mem_iff]
    exact key (fun e => e.1 = i ∧ m ∈ e.2 ∧ providingMods cov e.1 = ∅)
      (by rintro e₁ e₂ ⟨hid, hperm⟩; dsimp only; rw [hid, hperm.mem_iff])
  · apply Finset.ext
    intro x
    rw [providers_mem_iff, providers_mem_iff]
    exact key (fun e => providingMods cov e.1 ≠ ∅ ∧ m ∈ e.2 ∧ x ∈ providingMods cov e.1)
      (by rintro e₁ e₂ ⟨hid, hperm⟩; dsimp only; rw [hid, hperm.mem_iff])

/-- Witness for C5: a concrete permuted pair of regular maps. -/
theorem C5_witness :
    (find_coverage_analysis [(ps "a.dds", {ps "P"})]
        [(ps "a.dds", [ps "M", ps "N"]), (ps "b.dds", [ps "M"])]).providers (ps "M") =
      (find_coverage_analysis [(ps "a.dds", {ps "P"})]
        [(ps "b.dds", [ps "M"]), (ps "a.dds", [ps "N", ps "M"])]).providers (ps "M") :=
  (C5_order_independence [(ps "a.dds", {ps "P"})]
    [(ps "a.dds", [ps "M", ps "N"]), (ps "b.dds", [ps "M"])]
    [(ps "a.dds", [ps "N", ps "M"]), (ps "b.dds", [ps "M"])]
    [(ps "b.dds", [ps "M"]), (ps "a.dds", [ps "N", ps "M"])] (ps "M")
    (List.Forall₂.cons ⟨rfl, List.Perm.swap (ps "N") (ps "M") []⟩
      (List.Forall₂.cons ⟨rfl, List.Perm.refl _⟩ List.Forall₂.nil))
    (List.Perm.swap _ _ _)).2.2

theorem contribs_count (cov : CovMap) (m i : PStr) :
    ∀ reg : RegList, (coveredContrib cov m reg).count i + (uncoveredContrib cov m reg).count i =
      (reg.map (fun e => if e.1 = i then e.2.count m else 0)).sum := by
  intro reg
  induction reg with
  | nil => simp [coveredContrib, uncoveredContrib]
  | cons e rest ih =>
    simp only [coveredContrib, uncoveredContrib, List.map_cons, List.flatten_cons,
      List.count_append, List.sum_cons]
    have hcov : (if providingMods cov e.1 ≠ ∅ then List.replicate (e.2.count m) e.1 else []).count i
        = (if providingMods cov e.1 ≠ ∅ then (if e.1 = i then e.2.count m else 0) else 0) := by
      by_cases hp : providingMods cov e.1 ≠ ∅ <;> simp [hp, List.count_replicate]
    have hunc : (if providingMods cov e.1 = ∅ then List.replicate (e.2.count m) e.1 else []).count i
        = (if providingMods cov e.1 = ∅ then (if e.1 = i then e.2.count m else 0) else 0) := by
      by_cases hp : providingMods cov e.1 = ∅ <;> simp [hp, List.count_replicate]
    rw [hcov, hunc]
    simp only [coveredContrib, uncoveredContrib] at ih
    by_cases hp : providingMods cov e.1 ≠ ∅
    · have hp2 : ¬ providingMods cov e.1 = ∅ := hp
      rw [if_pos hp, if_neg hp2]
      omega
    · have hp2 : providingMods cov e.1 = ∅ := not_not.mp hp
      rw [if_neg hp, if_pos hp2]
      omega

theorem count_eq_one_of_nodup_mem {l : List PStr} {a : PStr} (hn : l.Nodup) (ha : a ∈ l) :
    l.count a = 1 := by
  induction l with
  | nil => exact absurd ha (List.not_mem_nil a)
  | cons x t ih =>
    rw [List.count_cons]
    have hx := List.nodup_cons.mp hn
    rcases List.mem_cons.mp ha with rfl | hmem
    · rw [List.count_eq_zero.mpr hx.1, if_pos (beq_self_eq_true a)]
    · have hne : a ≠ x := fun h => hx.1 (h ▸ hmem)
      rw [ih hx.2 hmem, if_neg (by simpa using fun h => hne h.symm)]

theorem sum_ownership (m i : PStr) :
    ∀ reg : RegList, (reg.map Prod.fst).Nodup → (∀ e ∈ reg, e.2.Nodup) →
      (reg.map (fun e => if e.1 = i then e.2.count m else 0)).sum =
        if ∃ e ∈ reg, e.1 = i ∧ m ∈ e.2 then 1 else 0 := by
  intro reg
  induction reg with
  | nil => intro _ _; simp
  | cons e rest ih =>
    intro hk hm
    rw [List.map_cons, List.sum_cons]
    rw [List.map_cons] at hk
    have hk2 := List.nodup_cons.mp hk
    rw [ih hk2.2 (fun x hx => hm x (List.mem_cons_of_mem _ hx))]
    by_cases hei : e.1 = i
    · subst hei
      rw [if_pos rfl]
      have hrest0 : ¬ ∃ e' ∈ rest, e'.1 = e.1 ∧ m ∈ e'.2 := by
        rintro ⟨e', he', h1, _⟩
        exact hk2.1 (h1 ▸ List.mem_map_of_mem Prod.fst he')
      rw [if_neg hrest0, Nat.add_zero]
      have hcnt : e.2.count m = if m ∈ e.2 then 1 else 0 := by
        by_cases hmem : m ∈ e.2
        · rw [if_pos hmem]
          exact count_eq_one_of_nodup_mem (hm e (List.mem_cons_self _ _)) hmem
        · rw [if_neg hmem]
          exact List.count_eq_zero.mpr hmem
      rw [hcnt]
      by_cases hmem : m ∈ e.2
      · rw [if_pos hmem, if_pos ⟨e, List.mem_cons_self _ _, rfl, hmem⟩]
      · rw [if_neg hmem, if_neg ?_]
        rintro ⟨e', he', h1, h2⟩
        rcases List.mem_cons.mp he' with hh | hr
        · exact hmem (by rw [hh] at h2; exact h2)
        · exact hrest0 ⟨e', hr, h1, h2⟩
    · rw [if_neg hei, Nat.zero_add]
      apply if_congr _ rfl rfl
      constructor
      · rintro ⟨e', he', h1, h2⟩
        exact ⟨e', List.mem_cons_of_mem _ he', h1, h2⟩
      · rintro ⟨e', he', h1, h2⟩
        rcases List.mem_cons.mp he' with hh | hr
        · exact absurd (by rw [← hh]; exact h1) hei
        · exact ⟨e', hr, h1, h2⟩

/-- C10: for every coverage_map, regular_map and mod m (with dict keys unique
and owning-mod sets duplicate-free, as Python dicts and sets guarantee),
find_coverage_analysis partitions m's identities exactly: each identity owned
by m appears exactly once across covered[m] and uncovered[m], every other
identity appears in neither, and providers[m] is non-empty exactly when
covered[m] is non-empty. -/
theorem C10_partition (cov : CovMap) (reg : RegList) (m : PStr)
    (hk : (reg.map Prod.fst).Nodup) (hm : ∀ e ∈ reg, e.2.Nodup) :
    (∀ i, ((find_coverage_analysis cov reg).covered m).count i +
        ((find_coverage_analysis cov reg).uncovered m).count i =
          if ∃ e ∈ reg, e.1 = i ∧ m ∈ e.2 then 1 else 0) ∧
    ((find_coverage_analysis cov reg).providers m ≠ ∅ ↔
      (find_coverage_analysis cov reg).covered m ≠ []) := by
  constructor
  · intro i
    unfold find_coverage_analysis
    rw [analyzeFrom_covered, analyzeFrom_uncovered]
    simp only [initState, List.nil_append]
    rw [contribs_count]
    exact sum_ownership m i reg hk hm
  · constructor
    · intro hne
      obtain ⟨x, hx⟩ := Finset.nonempty_iff_ne_empty.mpr hne
      obtain ⟨e, he, hp, hmem, _⟩ := (providers_mem_iff cov reg m x).mp hx
      exact List.ne_nil_of_mem ((covered_mem_iff cov reg m e.1).mpr ⟨e, he, rfl, hmem, hp⟩)
    · intro hne
      obtain ⟨i, hi⟩ := List.exists_mem_of_ne_nil _ hne
      obtain ⟨e, he, hei, hmem, hp⟩ := (covered_mem_iff cov reg m i).mp hi
      obtain ⟨x, hx⟩ := Finset.nonempty_iff_ne_empty.mpr hp
      exact Finset.nonempty_iff_ne_empty.mp
        ⟨x, (providers_mem_iff cov reg m x).mpr ⟨e, he, hp, hmem, hx⟩⟩

/-- Witness for C10 at a concrete two-entry regular map. -/
theorem C10_witness :
    ((find_coverage_analysis [(ps "a.dds", {ps "P"})]
        [(ps "a.dds", [ps "M"]), (ps "b.dds", [ps "M"])]).providers (ps "M") ≠ ∅ ↔
      (find_coverage_analysis [(ps "a.dds", {ps "P"})]
        [(ps "a.dds", [ps "M"]), (ps "b.dds", [ps "M"])]).covered (ps "M") ≠ []) :=
  (C10_partition [(ps "a.dds", {ps "P"})] [(ps "a.dds", [ps "M"]), (ps "b.dds", [ps "M"])]
    (ps "M") (by decide) (by decide)).2

/-! ## Characterization of the regular texture scan -/

theorem scanTexFile_eq (mod_name : PStr) (m : RegAccum) (rel : PStr) :
    scanTexFile mod_name m rel =
      if texSkip rel then m else regAdd m (texBase rel) mod_name := by
  unfold scanTexFile texBase
  dsimp only
  by_cases h1 : isAsciiStr (lowerStr (normalize_path (rel.map bslashToSlash))) = true
  · rw [if_neg (by simp [h1])]
    by_cases h2 : (ps "pbr/").isPrefixOf (lowerStr (normalize_path (rel.map bslashToSlash))) = true ∨
        substrOf (ps "/pbr/") (lowerStr (normalize_path (rel.map bslashToSlash))) = true
    · have hskip : texSkip rel := by
        unfold texSkip
        rcases h2 with h | h
        · exact Or.inl h
        · exact Or.inr (Or.inl h)
      rw [if_pos h2, if_pos hskip]
    · rw [if_neg h2]
      by_cases h3 : variantMapSuffixes.any
          (fun suf => endsWithStr (posixStem (rel.map bslashToSlash)) suf) = true
      · have hskip : texSkip rel := by
          unfold texSkip
          exact Or.inr (Or.inr (Or.inl h3))
        rw [if_pos h3, if_pos hskip]
      · rw [if_neg h3]
        by_cases h4 : excluded_patterns.any
            (fun pat => substrOf pat (lowerStr (normalize_path (rel.map bslashToSlash)))) = true
        · have hskip : texSkip rel := by
            unfold texSkip
            exact Or.inr (Or.inr (Or.inr (Or.inl h4)))
          rw [if_pos h4, if_pos hskip]
        · rw [if_neg h4]
          have hnot : ¬ texSkip rel := by
            unfold texSkip
            rintro (h | h | h | h | h)
            · exact h2 (Or.inl h)
            · exact h2 (Or.inr h)
            · exact h3 h
            · exact h4 h
            · rw [h1] at h
              exact Bool.noConfusion h
          rw [if_neg hnot]
  · have hskip : texSkip rel := by
      unfold texSkip
      exact Or.inr (Or.inr (Or.inr (Or.inr (Bool.eq_false_iff.mpr h1))))
    rw [if_pos (by simp [Bool.eq_false_iff.mpr h1]), if_pos hskip]

/-- C6: in the regular texture scan each dds file path is taken relative to
the textures folder, normalized and lower-cased; a file with a pbr/ segment, a
stem ending in one of _n _m _s _g _p _e, an exclusion-pattern match or
non-ASCII characters contributes nothing, and every surviving file's
lower-cased base texture identity gains mod_name in regular_map. -/
theorem C6_regular_scan (mod_name : PStr) :
    ∀ (files : List PStr) (m : RegAccum) (idn : PStr),
      scan_regular_textures mod_name files m idn =
        m idn ∪ (if ∃ rel ∈ files, ¬ texSkip rel ∧ texBase rel = idn then {mod_name} else ∅) := by
  intro files
  induction files with
  | nil =>
    intro m idn
    simp [scan_regular_textures]
  | cons f rest ih =>
    intro m idn
    show scan_regular_textures mod_name rest (scanTexFile mod_name m f) idn = _
    rw [ih, scanTexFile_eq]
    by_cases hs : texSkip f
    · rw [if_pos hs]
      have hiff : (∃ rel ∈ rest, ¬ texSkip rel ∧ texBase rel = idn) ↔
          ∃ rel ∈ f :: rest, ¬ texSkip rel ∧ texBase rel = idn := by
        constructor
        · rintro ⟨r, hr, h⟩
          exact ⟨r, List.mem_cons_of_mem _ hr, h⟩
        · rintro ⟨r, hr, h⟩
          rcases List.mem_cons.mp hr with rfl | hr'
          · exact absurd hs h.1
          · exact ⟨r, hr', h⟩
      rw [if_congr hiff rfl rfl]
    · rw [if_neg hs]
      unfold regAdd
      by_cases hb : idn = texBase f
      · rw [if_pos hb]
        have hcons : ∃ rel ∈ f :: rest, ¬ texSkip rel ∧ texBase rel = idn :=
          ⟨f, List.mem_cons_self _ _, hs, hb.symm⟩
        rw [if_pos hcons, Finset.insert_eq]
        by_cases hr : ∃ rel ∈ rest, ¬ texSkip rel ∧ texBase rel = idn
        · rw [if_pos hr]
          rw [Finset.union_comm {mod_name} (m idn), Finset.union_assoc, Finset.union_self]
        · rw [if_neg hr, Finset.union_empty, Finset.union_comm]
      · rw [if_neg hb]
        have hiff : (∃ rel ∈ rest, ¬ texSkip rel ∧ texBase rel = idn) ↔
            ∃ rel ∈ f :: rest, ¬ texSkip rel ∧ texBase rel = idn := by
          constructor
          · rintro ⟨r, hr, h⟩
            exact ⟨r, List.mem_cons_of_mem _ hr, h⟩
          · rintro ⟨r, hr, h⟩
            rcases List.mem_cons.mp hr with rfl | hr'
            · exact absurd h.2.symm hb
            · exact ⟨r, hr', h⟩
        rw [if_congr hiff rfl rfl]

/-! ## The slot-branch gaps of scan_pbr_coverage (C3, C4) -/

theorem processSlots_no_slot (mod_name : PStr) (base? : Option PStr) :
    ∀ (fs : List (PStr × Json)) (m : CovAccum), (∀ kv ∈ fs, isSlotKey kv.1 = false) →
      processSlots mod_name base? m fs = (m, false) := by
  intro fs
  induction fs with
  | nil => intro m _; rfl
  | cons kv rest ih =>
    intro m h
    obtain ⟨k, v⟩ := kv
    show processSlots mod_name base? m ((k, v) :: rest) = (m, false)
    unfold processSlots
    rw [if_neg (by simp [h (k, v) (List.mem_cons_self _ _)])]
    exact ih m (fun kv hkv => h kv (List.mem_cons_of_mem _ hkv))

/-- C3 counterexample: a slot2 reference inside a sidecar file whose directory
meshes/dyndolod/trees matches the exclusion list IS added to coverage_map,
refuting the claim that such an entry contributes no identity. -/
theorem C3_counterexample :
    scan_pbr_coverage (ps "ModA") []
        [⟨ps "meshes/dyndolod/trees",
          some (Json.arr [Json.obj [(ps "slot2", Json.str (ps "foo.dds"))]])⟩]
        (fun _ => ∅) (ps "foo.dds") = {ps "ModA"} ∧
      substrOf (ps "dyndolod") (lowerStr (ps "meshes/dyndolod/trees")) = true :=
  ⟨by decide, by decide⟩

/-- C3 amended: a texture/match_diffuse reference of a merged entry in an
excluded directory is rejected and never added to coverage_map (its entry
contributes nothing when it carries no slot fields), but slot<digits>
references are added to coverage_map even in excluded directories. -/
theorem C3_amended_exclusion (mod_name texture_dir : PStr) (pbrFiles : List PStr)
    (m : CovAccum) (merged : List (PStr × Json))
    (hslot : ∀ kv ∈ merged, isSlotKey kv.1 = false) :
    (processEntry mod_name texture_dir true pbrFiles m merged).1 = m ∧
    scan_pbr_coverage (ps "ModA") []
        [⟨ps "meshes/dyndolod/trees",
          some (Json.arr [Json.obj [(ps "texture", Json.str (ps "bark"))]])⟩]
        (fun _ => ∅) = (fun _ => ∅) ∧
    scan_pbr_coverage (ps "ModA") []
        [⟨ps "meshes/dyndolod/trees",
          some (Json.arr [Json.obj [(ps "slot2", Json.str (ps "foo.dds"))]])⟩]
        (fun _ => ∅) (ps "foo.dds") = {ps "ModA"} := by
  refine ⟨?_, rfl, by decide⟩
  unfold processEntry
  cases hmd : dictGet merged (ps "match_diffuse") with
  | some v =>
    dsimp only
    by_cases ht : jTruthy v = true
    · rw [if_pos ht]
      cases v with
      | str s =>
        dsimp only
        by_cases ha : isAsciiStr (mainTexPath texture_dir pbrFiles s) = true
        · rw [if_neg (by simp [ha]), if_pos rfl,
            processSlots_no_slot mod_name _ merged m hslot]
        · rw [if_pos (by simp [Bool.eq_false_iff.mpr ha])]
      | null => rfl
      | bool b => rfl
      | num n => rfl
      | arr xs => rfl
      | obj fs => rfl
    · rw [if_neg ht, processSlots_no_slot mod_name none merged m hslot]
  | none =>
    cases htx : dictGet merged (ps "texture") with
    | some v =>
      dsimp only
      by_cases ht : jTruthy v = true
      · rw [if_pos ht]
        cases v with
        | str s =>
          dsimp only
          by_cases ha : isAsciiStr (mainTexPath texture_dir pbrFiles s) = true
          · rw [if_neg (by simp [ha]), if_pos rfl,
              processSlots_no_slot mod_name _ merged m hslot]
          · rw [if_pos (by simp [Bool.eq_false_iff.mpr ha])]
        | null => rfl
        | bool b => rfl
        | num n => rfl
        | arr xs => rfl
        | obj fs => rfl
      · rw [if_neg ht, processSlots_no_slot mod_name none merged m hslot]
    | none =>
      rw [processSlots_no_slot mod_name none merged m hslot]

/-- Witness for the amended C3 at a concrete excluded-directory entry. -/
theorem C3_amended_witness :
    (processEntry (ps "ModA") (ps "meshes/dyndolod/trees") true [] (fun _ => ∅)
      [(ps "texture", Json.str (ps "bark"))]).1 = (fun _ => ∅) :=
  (C3_amended_exclusion (ps "ModA") (ps "meshes/dyndolod/trees") [] (fun _ => ∅)
    [(ps "texture", Json.str (ps "bark"))] (by decide)).1

/-- C4 counterexample: a slot2 value containing non-ASCII characters IS added
to coverage_map (the slot branch performs no ASCII check), refuting the claim
that every non-ASCII texture path is rejected. -/
theorem C4_counterexample :
    scan_pbr_coverage (ps "ModA") []
        [⟨ps "armor", some (Json.arr [Json.obj [(ps "slot2", Json.str (ps "tëst.dds"))]])⟩]
        (fun _ => ∅) (ps "tëst.dds") = {ps "ModA"} ∧
      isAsciiStr (ps "tëst.dds") = false :=
  ⟨by decide, by decide⟩

/-- C4 amended: a non-ASCII main texture path makes the entry contribute
nothing at all — the rest of the entry including its slot fields is skipped,
so slot scanning is not independent of the main rejection — while slot-derived
paths are never ASCII-checked and are added even when non-ASCII. -/
theorem C4_amended_ascii (mod_name texture_dir : PStr) (is_excluded : Bool)
    (pbrFiles : List PStr) (m : CovAccum) (merged : List (PStr × Json)) (s : PStr)
    (href : dictGet merged (ps "match_diffuse") = some (Json.str s) ∨
      (dictGet merged (ps "match_diffuse") = none ∧
        dictGet merged (ps "texture") = some (Json.str s)))
    (hne : s ≠ [])
    (hascii : isAsciiStr (mainTexPath texture_dir pbrFiles s) = false) :
    processEntry mod_name texture_dir is_excluded pbrFiles m merged = (m, false) ∧
    scan_pbr_coverage (ps "ModA") []
        [⟨ps "armor", some (Json.arr [Json.obj
          [(ps "texture", Json.str (ps "tëst")), (ps "slot2", Json.str (ps "ok.dds"))]])⟩]
        (fun _ => ∅) (ps "ok.dds") = ∅ ∧
    scan_pbr_coverage (ps "ModA") []
        [⟨ps "armor", some (Json.arr [Json.obj [(ps "slot2", Json.str (ps "tëst.dds"))]])⟩]
        (fun _ => ∅) (ps "tëst.dds") = {ps "ModA"} := by
  have ht : jTruthy (Json.str s) = true := by
    cases s with
    | nil => exact absurd rfl hne
    | cons c t => rfl
  refine ⟨?_, by decide, by decide⟩
  unfold processEntry
  rcases href with h1 | ⟨h1, h2⟩
  · rw [h1]
    dsimp only
    rw [if_pos ht]
    rw [if_pos (by simp [hascii])]
  · rw [h1, h2]
    dsimp only
    rw [if_pos ht]
    rw [if_pos (by simp [hascii])]

/-- Witness for the amended C4 at a concrete non-ASCII main reference. -/
theorem C4_amended_witness :
    processEntry (ps "ModA") (ps "armor") false [] (fun _ => ∅)
      [(ps "texture", Json.str (ps "tëst")), (ps "slot2", Json.str (ps "ok.dds"))] =
      ((fun _ => ∅), false) :=
  (C4_amended_ascii (ps "ModA") (ps "armor") false [] (fun _ => ∅)
    [(ps "texture", Json.str (ps "tëst")), (ps "slot2", Json.str (ps "ok.dds"))]
    (ps "tëst") (Or.inr ⟨rfl, rfl⟩) (by decide) (by decide)).1

/-! ## Idempotency analysis of get_base_texture_name (C2) -/

theorem map_bslash_id {l : PStr} (h : '\\' ∉ l) : l.map bslashToSlash = l := by
  induction l with
  | nil => rfl
  | cons c t ih =>
    rw [List.map_cons, ih (fun hm => h (List.mem_cons_of_mem _ hm))]
    have hc : c ≠ '\\' := fun hh => h (hh ▸ List.mem_cons_self c t)
    unfold bslashToSlash
    rw [if_neg hc]

theorem pathParts_mem_props {s : PStr} {seg : PStr} (h : seg ∈ pathParts s) :
    seg ≠ [] ∧ seg ≠ ps "." ∧ '/' ∉ seg ∧ ∀ x ∈ seg, x ∈ s := by
  unfold pathParts at h
  have h1 := List.mem_filter.mp h
  have h2 : seg ≠ [] ∧ seg ≠ ps "." := by simpa using h1.2
  exact ⟨h2.1, h2.2, not_slash_mem_of_mem_splitOn h1.1, subset_of_mem_splitOn h1.1⟩

theorem posixRoot_eq_nil {s : PStr} (h : s.head? ≠ some '/') : posixRoot s = [] := by
  unfold posixRoot
  cases s with
  | nil => rfl
  | cons c t =>
    have hc : ¬ (c = '/') := fun hh => h (by rw [hh]; rfl)
    simp [List.takeWhile_cons, hc]

theorem joinSlash_append_single (Q : List PStr) (x : PStr) (hQ : Q ≠ []) :
    joinSlash (Q ++ [x]) = joinSlash Q ++ '/' :: x := by
  induction Q with
  | nil => exact absurd rfl hQ
  | cons a t ih =>
    cases t with
    | nil =>
      rw [show ([a] : List PStr) ++ [x] = [a, x] from rfl, joinSlash_cons_cons,
        joinSlash_single, joinSlash_single]
    | cons b t' =>
      have h1 : (a :: b :: t') ++ [x] = a :: ((b :: t') ++ [x]) := rfl
      have h2 : (b :: t') ++ [x] = b :: (t' ++ [x]) := rfl
      rw [h1, h2, joinSlash_cons_cons, ← h2, ih (List.cons_ne_nil b t'), joinSlash_cons_cons,
        List.append_assoc, List.cons_append]

theorem rfindDot_append_dds (b : PStr) : rfindDot (b ++ ps ".dds") = some b.length := by
  unfold rfindDot
  rw [List.reverse_append]
  rw [show ((ps ".dds").reverse : PStr) = ['s', 'd', 'd', '.'] from rfl]
  rw [List.findIdx?_append]
  rw [show List.findIdx? (fun c => c = '.') (['s', 'd', 'd', '.'] : PStr) = some 3 from by decide]
  show some ((b ++ ps ".dds").length - 1 - 3) = some b.length
  have hlen : (b ++ ps ".dds").length = b.length + 4 := by simp [ps]
  rw [hlen]
  congr 1

theorem stemOfName_append_dds {b : PStr} (hb : b ≠ []) : stemOfName (b ++ ps ".dds") = b := by
  unfold stemOfName
  rw [rfindDot_append_dds]
  dsimp only
  have hlen : (b ++ ps ".dds").length = b.length + 4 := by simp [ps]
  rw [if_pos ⟨List.length_pos.mpr hb, by rw [hlen]; omega⟩]
  exact List.take_left b (ps ".dds")

theorem stripStem_fix {b : PStr} (hfix : ∀ suf ∈ pbr_suffixes, endsWithStr b suf = false) :
    stripStem b = b := by
  unfold stripStem
  rw [List.find?_eq_none.mpr (fun suf hs => by simp [hfix suf hs])]

theorem mem_stemOfName {n : PStr} {x : Char} (h : x ∈ stemOfName n) : x ∈ n := by
  unfold stemOfName at h
  rcases hf : rfindDot n with _ | i
  · rwa [hf] at h
  · rw [hf] at h
    dsimp only at h
    by_cases hc : 0 < i ∧ i < n.length - 1
    · rw [if_pos hc] at h
      exact List.mem_of_mem_take h
    · rwa [if_neg hc] at h

theorem mem_stripStem {st : PStr} {x : Char} (h : x ∈ stripStem st) : x ∈ st := by
  unfold stripStem at h
  rcases hf : pbr_suffixes.find? (fun suf => endsWithStr st suf) with _ | suf
  · rwa [hf] at h
  · rw [hf] at h
    exact List.mem_of_mem_take h

theorem posixName_mem_pathParts (s : PStr) :
    posixName s = [] ∨ posixName s ∈ pathParts s := by
  unfold posixName
  rcases hf : (pathParts s).getLast? with _ | a
  · exact Or.inl rfl
  · right
    obtain ⟨hh, heq⟩ := List.mem_getLast?_eq_getLast (Option.mem_def.mpr hf)
    show (some a).getD [] ∈ _
    rw [Option.getD_some, heq]
    exact List.getLast_mem hh

theorem normalize_joinSlash {Q : List PStr} (h1 : ∀ a ∈ Q, a ≠ [])
    (h2 : ∀ a ∈ Q, '/' ∉ a) (h3 : ∀ a ∈ Q, '\\' ∉ a) (hQ : Q ≠ []) :
    normalize_path (joinSlash Q) = joinSlash Q := by
  obtain ⟨a, t, rfl⟩ : ∃ a t, Q = a :: t := by
    cases Q with
    | nil => exact absurd rfl hQ
    | cons a t => exact ⟨a, t, rfl⟩
  have hne : joinSlash (a :: t) ≠ [] := joinSlash_ne_nil t (h1 a (List.mem_cons_self a t))
  unfold normalize_path
  rw [if_neg hne]
  have hnb : '\\' ∉ joinSlash (a :: t) := by
    intro hm
    rcases mem_joinSlash _ hm with h | ⟨x, hx, hc⟩
    · exact absurd h (by decide)
    · exact h3 x hx hc
  rw [map_bslash_id hnb]
  have hsplit : (joinSlash (a :: t)).splitOn '/' = a :: t := by
    unfold joinSlash
    exact List.splitOn_intercalate (a :: t) '/' h2 (List.cons_ne_nil a t)
  rw [hsplit, List.filter_eq_self.mpr (fun seg hs => by simp [h1 seg hs])]

/-- C2 counterexample: get_base_texture_name is not idempotent: one pass
strips only the last matching suffix (_m), so a second application strips a
further suffix (_n). -/
theorem C2_counterexample :
    get_base_texture_name (ps "cuirass_n_m.dds") = ps "cuirass_n.dds" ∧
    get_base_texture_name (get_base_texture_name (ps "cuirass_n_m.dds")) = ps "cuirass.dds" ∧
    get_base_texture_name (get_base_texture_name (ps "cuirass_n_m.dds")) ≠
      get_base_texture_name (ps "cuirass_n_m.dds") :=
  ⟨by decide, by decide, by decide⟩

theorem joinSlash_parts_ne_dot {parts : List PStr} {a0 : PStr} {t0 : List PStr}
    (ha0 : parts = a0 :: t0)
    (hprops : ∀ a ∈ parts, a ≠ [] ∧ a ≠ ps "." ∧ '/' ∉ a ∧ '\\' ∉ a) :
    joinSlash parts ≠ ps "." := by
  subst ha0
  have ha0p := hprops a0 (List.mem_cons_self _ _)
  cases t0 with
  | nil =>
    rw [joinSlash_single]
    exact ha0p.2.1
  | cons b1 t1 =>
    rw [joinSlash_cons_cons]
    intro hh
    have hlen := congrArg List.length hh
    rw [List.length_append, List.length_cons] at hlen
    have h1 : 1 ≤ a0.length := List.length_pos.mpr ha0p.1
    have h2 : (ps ".").length = 1 := rfl
    omega

theorem posixStem_def (s : PStr) : posixStem s = stemOfName (posixName s) := rfl

theorem pathParts_def (s : PStr) :
    pathParts s = (s.splitOn '/').filter (fun seg => seg ≠ [] ∧ seg ≠ ps ".") := rfl

/-- C2 amended: get_base_texture_name is idempotent on every path whose
once-stripped stem is non-empty and itself ends with no suffix of the table;
in general one application strips only one suffix, so a second application can
strip again. -/
theorem C2_amended_idempotent (p : PStr)
    (hne : stripStem (posixStem (normalize_path p)) ≠ [])
    (hfix : ∀ suf ∈ pbr_suffixes,
      endsWithStr (stripStem (posixStem (normalize_path p))) suf = false) :
    get_base_texture_name (get_base_texture_name p) = get_base_texture_name p := by
  have hnp_join : normalize_path p = joinSlash (normParts p) := normalize_path_eq_joinSlash p
  have hhead : (normalize_path p).head? ≠ some '/' := by
    rw [hnp_join]
    exact joinSlash_head_ne_slash _ (normParts_mem_ne_nil p) (normParts_no_slash p)
  have hnb : '\\' ∉ normalize_path p := by
    rw [hnp_join]
    intro hm
    rcases mem_joinSlash _ hm with h | ⟨a, ha, hc⟩
    · exact absurd h (by decide)
    · exact normParts_no_bslash p a ha hc
  have hroot : posixRoot (normalize_path p) = [] := posixRoot_eq_nil hhead
  have hname : posixName (normalize_path p) ∈ pathParts (normalize_path p) := by
    rcases posixName_mem_pathParts (normalize_path p) with h | h
    · exfalso
      apply hne
      have hst : posixStem (normalize_path p) = [] := by
        unfold posixStem
        rw [h]
        decide
      rw [hst]
      decide
    · exact h
  obtain ⟨hn_ne, hn_dot, hn_slash, hn_sub⟩ := pathParts_mem_props hname
  have hb_slash : '/' ∉ stripStem (posixStem (normalize_path p)) := fun hm =>
    hn_slash (mem_stemOfName (mem_stripStem hm))
  have hb_bslash : '\\' ∉ stripStem (posixStem (normalize_path p)) := fun hm =>
    hnb (hn_sub _ (mem_stemOfName (mem_stripStem hm)))
  have hname_dds_props :
      stripStem (posixStem (normalize_path p)) ++ ps ".dds" ≠ [] ∧
      '/' ∉ stripStem (posixStem (normalize_path p)) ++ ps ".dds" ∧
      '\\' ∉ stripStem (posixStem (normalize_path p)) ++ ps ".dds" ∧
      stripStem (posixStem (normalize_path p)) ++ ps ".dds" ≠ ps "." := by
    refine ⟨by simp [ps], ?_, ?_, ?_⟩
    · intro hm
      rcases List.mem_append.mp hm with h | h
      · exact hb_slash h
      · exact absurd h (by decide)
    · intro hm
      rcases List.mem_append.mp hm with h | h
      · exact hb_bslash h
      · exact absurd h (by decide)
    · intro hh
      have hlen := congrArg List.length hh
      rw [List.length_append] at hlen
      have h2 : (ps ".dds").length = 4 := rfl
      have h3 : (ps ".").length = 1 := rfl
      omega
  have hparent : posixParentStr (normalize_path p) =
      if (pathParts (normalize_path p)).dropLast = [] then ps "."
      else joinSlash ((pathParts (normalize_path p)).dropLast) := by
    unfold posixParentStr
    rw [hroot]
    by_cases hp : (pathParts (normalize_path p)).dropLast = []
    · rw [if_pos ⟨rfl, hp⟩, if_pos hp]
    · rw [if_neg (fun hh => hp hh.2), if_neg hp, List.nil_append]
  by_cases hdir : (pathParts (normalize_path p)).dropLast = []
  · -- the directory is "."
    have hdirA : (posixParentStr (normalize_path p)).map bslashToSlash = ps "." := by
      rw [hparent, if_pos hdir]
      decide
    have hgp : get_base_texture_name p =
        stripStem (posixStem (normalize_path p)) ++ ps ".dds" := by
      unfold get_base_texture_name
      dsimp only
      rw [hdirA, if_pos rfl]
    rw [hgp]
    have hnorm : normalize_path (stripStem (posixStem (normalize_path p)) ++ ps ".dds") =
        stripStem (posixStem (normalize_path p)) ++ ps ".dds" := by
      have h := normalize_joinSlash
        (Q := [stripStem (posixStem (normalize_path p)) ++ ps ".dds"])
        (by intro a ha; rw [List.mem_singleton.mp ha]; exact hname_dds_props.1)
        (by intro a ha; rw [List.mem_singleton.mp ha]; exact hname_dds_props.2.1)
        (by intro a ha; rw [List.mem_singleton.mp ha]; exact hname_dds_props.2.2.1)
        (by simp)
      rwa [joinSlash_single] at h
    have hsplit_r : (stripStem (posixStem (normalize_path p)) ++ ps ".dds").splitOn '/' =
        [stripStem (posixStem (normalize_path p)) ++ ps ".dds"] := by
      unfold List.splitOn
      exact List.splitOnP_eq_single _ _
        (fun x hx hpx => hname_dds_props.2.1 ((by simpa using hpx) ▸ hx))
    have hpp_r : pathParts (stripStem (posixStem (normalize_path p)) ++ ps ".dds") =
        [stripStem (posixStem (normalize_path p)) ++ ps ".dds"] := by
      unfold pathParts
      rw [hsplit_r, List.filter_eq_self.mpr ?_]
      intro a ha
      rw [List.mem_singleton.mp ha]
      simp [hname_dds_props.1, hname_dds_props.2.2.2]
    have hname_r : posixName (stripStem (posixStem (normalize_path p)) ++ ps ".dds") =
        stripStem (posixStem (normalize_path p)) ++ ps ".dds" := by
      unfold posixName
      rw [hpp_r]
      rfl
    have hstem_r : posixStem (stripStem (posixStem (normalize_path p)) ++ ps ".dds") =
        stripStem (posixStem (normalize_path p)) := by
      conv_lhs => rw [posixStem_def]
      rw [hname_r]
      exact stemOfName_append_dds hne
    have hhead_r : (stripStem (posixStem (normalize_path p)) ++ ps ".dds").head? ≠ some '/' := by
      rcases hb : stripStem (posixStem (normalize_path p)) with _ | ⟨c, t⟩
      · exact absurd hb hne
      · rw [List.cons_append]
        intro hh
        simp only [List.head?, Option.some_inj] at hh
        exact hb_slash (by rw [hb, hh]; exact List.mem_cons_self _ _)
    have hroot_r : posixRoot (stripStem (posixStem (normalize_path p)) ++ ps ".dds") = [] :=
      posixRoot_eq_nil hhead_r
    have hparent_r : posixParentStr (stripStem (posixStem (normalize_path p)) ++ ps ".dds") =
        ps "." := by
      unfold posixParentStr
      rw [hroot_r, hpp_r]
      rw [if_pos ⟨rfl, rfl⟩]
    unfold get_base_texture_name
    dsimp only
    rw [hnorm, hstem_r, hparent_r]
    rw [show (ps ".").map bslashToSlash = ps "." from rfl, if_pos rfl,
      stripStem_fix hfix]
  · -- the directory is joinSlash of the dropLast segments
    have hparts_props : ∀ a ∈ (pathParts (normalize_path p)).dropLast,
        a ≠ [] ∧ a ≠ ps "." ∧ '/' ∉ a ∧ '\\' ∉ a := by
      intro a ha
      have hmem := List.dropLast_subset _ ha
      obtain ⟨h1, h2, h3, h4⟩ := pathParts_mem_props hmem
      exact ⟨h1, h2, h3, fun hm => hnb (h4 _ hm)⟩
    obtain ⟨a0, t0, ha0⟩ : ∃ a0 t0, (pathParts (normalize_path p)).dropLast = a0 :: t0 := by
      rcases hc : (pathParts (normalize_path p)).dropLast with _ | ⟨a0, t0⟩
      · exact absurd hc hdir
      · exact ⟨a0, t0, rfl⟩
    have hdirB : posixParentStr (normalize_path p) =
        joinSlash ((pathParts (normalize_path p)).dropLast) := by
      rw [hparent, if_neg hdir]
    have hdir_nb : '\\' ∉ joinSlash ((pathParts (normalize_path p)).dropLast) := by
      intro hm
      rcases mem_joinSlash _ hm with h | ⟨x, hx, hc⟩
      · exact absurd h (by decide)
      · exact (hparts_props x hx).2.2.2 hc
    have hdir_map : (posixParentStr (normalize_path p)).map bslashToSlash =
        joinSlash ((pathParts (normalize_path p)).dropLast) := by
      rw [hdirB, map_bslash_id hdir_nb]
    have hdir_ne_dot : joinSlash ((pathParts (normalize_path p)).dropLast) ≠ ps "." :=
      joinSlash_parts_ne_dot ha0 hparts_props
    have hassoc : ∀ d : PStr,
        d ++ ps "/" ++ stripStem (posixStem (normalize_path p)) ++ ps ".dds" =
          d ++ '/' :: (stripStem (posixStem (normalize_path p)) ++ ps ".dds") := by
      intro d
      rw [List.append_assoc, List.append_assoc]
      rfl
    have hgp : get_base_texture_name p =
        joinSlash ((pathParts (normalize_path p)).dropLast ++
          [stripStem (posixStem (normalize_path p)) ++ ps ".dds"]) := by
      unfold get_base_texture_name
      dsimp only
      rw [hdir_map, if_neg hdir_ne_dot, joinSlash_append_single _ _ hdir, hassoc]
    rw [hgp]
    have hQne : ∀ a ∈ (pathParts (normalize_path p)).dropLast ++
        [stripStem (posixStem (normalize_path p)) ++ ps ".dds"], a ≠ [] := by
      intro a ha
      rcases List.mem_append.mp ha with h | h
      · exact (hparts_props a h).1
      · rw [List.mem_singleton.mp h]
        exact hname_dds_props.1
    have hQsl : ∀ a ∈ (pathParts (normalize_path p)).dropLast ++
        [stripStem (posixStem (normalize_path p)) ++ ps ".dds"], '/' ∉ a := by
      intro a ha
      rcases List.mem_append.mp ha with h | h
      · exact (hparts_props a h).2.2.1
      · rw [List.mem_singleton.mp h]
        exact hname_dds_props.2.1
    have hQbs : ∀ a ∈ (pathParts (normalize_path p)).dropLast ++
        [stripStem (posixStem (normalize_path p)) ++ ps ".dds"], '\\' ∉ a := by
      intro a ha
      rcases List.mem_append.mp ha with h | h
      · exact (hparts_props a h).2.2.2
      · rw [List.mem_singleton.mp h]
        exact hname_dds_props.2.2.1
    have hQdot : ∀ a ∈ (pathParts (normalize_path p)).dropLast ++
        [stripStem (posixStem (normalize_path p)) ++ ps ".dds"], a ≠ ps "." := by
      intro a ha
      rcases List.mem_append.mp ha with h | h
      · exact (hparts_props a h).2.1
      · rw [List.mem_singleton.mp h]
        exact hname_dds_props.2.2.2
    have hQnil : (pathParts (normalize_path p)).dropLast ++
        [stripStem (posixStem (normalize_path p)) ++ ps ".dds"] ≠ [] := by
      simp
    have hnorm := normalize_joinSlash hQne hQsl hQbs hQnil
    have hsplit_r : (joinSlash ((pathParts (normalize_path p)).dropLast ++
        [stripStem (posixStem (normalize_path p)) ++ ps ".dds"])).splitOn '/' =
        (pathParts (normalize_path p)).dropLast ++
          [stripStem (posixStem (normalize_path p)) ++ ps ".dds"] := by
      unfold joinSlash
      exact List.splitOn_intercalate _ '/' hQsl hQnil
    have hpp_r : pathParts (joinSlash ((pathParts (normalize_path p)).dropLast ++
        [stripStem (posixStem (normalize_path p)) ++ ps ".dds"])) =
        (pathParts (normalize_path p)).dropLast ++
          [stripStem (posixStem (normalize_path p)) ++ ps ".dds"] := by
      conv_lhs => rw [pathParts_def]
      rw [hsplit_r, List.filter_eq_self.mpr ?_]
      intro a ha
      simp [hQne a ha, hQdot a ha]
    have hname_r : posixName (joinSlash ((pathParts (normalize_path p)).dropLast ++
        [stripStem (posixStem (normalize_path p)) ++ ps ".dds"])) =
        stripStem (posixStem (normalize_path p)) ++ ps ".dds" := by
      unfold posixName
      rw [hpp_r, List.getLast?_concat]
      rfl
    have hstem_r : posixStem (joinSlash ((pathParts (normalize_path p)).dropLast ++
        [stripStem (posixStem (normalize_path p)) ++ ps ".dds"])) =
        stripStem (posixStem (normalize_path p)) := by
      conv_lhs => rw [posixStem_def]
      rw [hname_r]
      exact stemOfName_append_dds hne
    have hroot_r : posixRoot (joinSlash ((pathParts (normalize_path p)).dropLast ++
        [stripStem (posixStem (normalize_path p)) ++ ps ".dds"])) = [] :=
      posixRoot_eq_nil (joinSlash_head_ne_slash _ hQne hQsl)
    have hparent_r : posixParentStr (joinSlash ((pathParts (normalize_path p)).dropLast ++
        [stripStem (posixStem (normalize_path p)) ++ ps ".dds"])) =
        joinSlash ((pathParts (normalize_path p)).dropLast) := by
      unfold posixParentStr
      rw [hroot_r, hpp_r, List.dropLast_concat]
      rw [if_neg (fun hh => hdir hh.2), List.nil_append]
    unfold get_base_texture_name
    dsimp only
    rw [hnorm, hstem_r, hparent_r, map_bslash_id hdir_nb, if_neg hdir_ne_dot,
      stripStem_fix hfix, joinSlash_append_single _ _ hdir, hassoc]

/-- Witness for the amended C2 at a concrete already-stripped path. -/
theorem C2_amended_witness :
    get_base_texture_name (get_base_texture_name (ps "armor/x.dds")) =
      get_base_texture_name (ps "armor/x.dds") :=
  C2_amended_idempotent (ps "armor/x.dds") (by decide) (by decide)

end MeteorPBR
